import Mathlib

/-!
Verification of the composition-store service (`server_main.py`) and the
image upload echo service (`old_image_server_main.py`).

The relational store is embedded shallowly: the `run` and `composition`
tables become lists of rows in insertion order, with autoincrement primary
keys drawn from explicit counters.  Percentages (Python floats constrained
to [0,100]) are modelled as rationals; integer columns as `Int`.
-/

namespace CompStore

/-- Row of the `run` table: surrogate key `pk`, unique external `id`,
and the `items_processed` count. -/
structure Run where
  pk : Nat
  id : String
  items_processed : Int
  deriving Repr, DecidableEq

/-- Row of the `composition` table: surrogate key `pk`, foreign key
`run_fk` to `run.pk`, a material name and a percentage. -/
structure Composition where
  pk : Nat
  run_fk : Nat
  material : String
  percentage : ℚ
  deriving Repr, DecidableEq

/-- Input schema `CompositionIn`: one (material, percentage) pair. -/
structure CompositionIn where
  material : String
  percentage : ℚ
  deriving Repr, DecidableEq

/-- Input schema `RunIn`: external id, count, full composition list. -/
structure RunIn where
  id : String
  items_processed : Int
  composition : List CompositionIn
  deriving Repr, DecidableEq

/-- Output schema `RunOut` (same shape as `RunIn`). -/
structure RunOut where
  id : String
  items_processed : Int
  composition : List CompositionIn
  deriving Repr, DecidableEq

/-- Output schema `RunMeta`: id plus count, no composition detail. -/
structure RunMeta where
  id : String
  items_processed : Int
  deriving Repr, DecidableEq

/-- The database state: both tables (rows in insertion order) and the
autoincrement counters for their primary keys. -/
structure Store where
  nextRunPk : Nat
  nextCompPk : Nat
  runs : List Run
  comps : List Composition
  deriving Repr, DecidableEq

/-- The empty database, as created by `SQLModel.metadata.create_all`. -/
def Store.empty : Store := ⟨0, 0, [], []⟩

/-- `session.exec(select(Run).where(Run.id == i)).first()`. -/
def findRun (s : Store) (i : String) : Option Run :=
  s.runs.find? (fun r => r.id == i)

/-- Composition rows inserted by the loop
`for c in payload.composition: session.add(Composition(run_fk=k, ...))`:
each row gets the next autoincrement pk, starting from `n`. -/
def buildRows (n k : Nat) : List CompositionIn → List Composition
  | [] => []
  | c :: rest => ⟨n, k, c.material, c.percentage⟩ :: buildRows (n + 1) k rest

/-- Effect of committing the insertion loop: the fresh rows are appended
to the `composition` table and the autoincrement counter advances. -/
def insertComps (s : Store) (k : Nat) (cs : List CompositionIn) : Store :=
  { s with comps := s.comps ++ buildRows s.nextCompPk k cs,
           nextCompPk := s.nextCompPk + cs.length }

/-- `run.items_processed = payload.items_processed; session.commit()`:
update the count of the row with primary key `k`. -/
def updateCount (s : Store) (k : Nat) (n : Int) : Store :=
  { s with runs := s.runs.map (fun q =>
      if q.pk = k then { q with items_processed := n } else q) }

/-- `session.query(Composition).filter(Composition.run_fk == run.pk).delete()`. -/
def wipeComps (s : Store) (k : Nat) : Store :=
  { s with comps := s.comps.filter (fun c => c.run_fk ≠ k) }

/-- `session.add(Run(id=..., items_processed=...)); session.commit()`:
insert a new run row with the next autoincrement pk. -/
def createRun (s : Store) (i : String) (n : Int) : Store :=
  { s with runs := s.runs ++ [⟨s.nextRunPk, i, n⟩],
           nextRunPk := s.nextRunPk + 1 }

/-- `POST /v1/runs` body of `upsert_run` (after validation): look up the
run by external id; if absent create it and insert the composition rows;
if present update the count, wipe its composition rows, and insert the
fresh ones. -/
def upsert_run (s : Store) (p : RunIn) : Store :=
  match findRun s p.id with
  | none => insertComps (createRun s p.id p.items_processed) s.nextRunPk p.composition
  | some r => insertComps (wipeComps (updateCount s r.pk p.items_processed) r.pk)
      r.pk p.composition

/-- The composition list a read endpoint reports for the run with pk `k`:
`select(Composition).where(Composition.run_fk == run.pk)` shaped as
`[{material, percentage}]`. -/
def compsView (s : Store) (k : Nat) : List CompositionIn :=
  (s.comps.filter (fun c => c.run_fk == k)).map (fun c => ⟨c.material, c.percentage⟩)

/-- `GET /v1/runs/{run_id}` (`get_by_id`): `none` models the 404 branch. -/
def get_by_id (s : Store) (i : String) : Option RunOut :=
  (findRun s i).map (fun r => ⟨r.id, r.items_processed, compsView s r.pk⟩)

/-- Accumulator for scanning the run table for the highest surrogate key. -/
def pickLatest (acc : Option Run) (r : Run) : Option Run :=
  match acc with
  | none => some r
  | some m => if m.pk < r.pk then some r else acc

/-- `select(Run).order_by(Run.pk.desc())).first()`: the run with the
highest surrogate key. -/
def latestRun (s : Store) : Option Run :=
  s.runs.foldl pickLatest none

/-- `GET /v1/runs/latest` (`get_latest`): `none` models the 404 branch. -/
def get_latest (s : Store) : Option RunOut :=
  (latestRun s).map (fun r => ⟨r.id, r.items_processed, compsView s r.pk⟩)

/-- `GET /v1/runs/{run_id}` as routed by the framework: the literal route
`/v1/runs/latest` is registered first, so the path segment "latest" is
dispatched to `get_latest` and never reaches `get_by_id`. -/
def route_runs_get (s : Store) (run_id : String) : Option RunOut :=
  if run_id = "latest" then get_latest s else get_by_id s run_id

/-- `ORDER BY pk DESC`. -/
def pkDesc (a b : Run) : Prop := b.pk ≤ a.pk

instance : DecidableRel pkDesc := fun a b => Nat.decLe b.pk a.pk

instance : IsTotal Run pkDesc := ⟨fun a b => Nat.le_total b.pk a.pk⟩

instance : IsTrans Run pkDesc := ⟨fun _ _ _ h1 h2 => le_trans h2 h1⟩

/-- `GET /v1/runs` (`list_runs`): runs ordered by pk descending, capped
at `limit`, shaped as `{id, items_processed}` summaries. -/
def list_runs (s : Store) (limit : Nat) : List RunMeta :=
  ((List.insertionSort pkDesc s.runs).take limit).map
    (fun r => ⟨r.id, r.items_processed⟩)

/-- `GET /v1/runs` when the caller supplies no limit: `limit: int = 50`. -/
def list_runs_default (s : Store) : List RunMeta := list_runs s 50

/-- Validation of `CompositionIn`: `material: str = Field(min_length=1)`,
`percentage: confloat(ge=0, le=100)`. -/
def validComp (c : CompositionIn) : Bool :=
  decide (1 ≤ c.material.length) && decide ((0 : ℚ) ≤ c.percentage)
    && decide (c.percentage ≤ 100)

/-- Validation of `RunIn`: `id: str = Field(min_length=1)`,
`items_processed: int = Field(ge=0)`, every entry valid. -/
def validRun (p : RunIn) : Bool :=
  decide (1 ≤ p.id.length) && decide ((0 : Int) ≤ p.items_processed)
    && p.composition.all validComp

/-- The full `POST /v1/runs` endpoint: the api-key dependency rejects with
401 before validation; malformed bodies are rejected with 422 before the
handler body runs; otherwise the handler mutates the store and returns 200. -/
def upsert_endpoint (expected key : String) (s : Store) (p : RunIn) :
    Nat × Store :=
  if key = expected then
    if validRun p then (200, upsert_run s p) else (422, s)
  else (401, s)

/-- Database well-formedness: runs are in insertion order with strictly
ascending surrogate keys below the autoincrement counter, external ids are
unique, composition pks are below their counter, and every composition row
references an existing run. -/
def WF (s : Store) : Prop :=
  s.runs.Pairwise (fun a b => a.pk < b.pk) ∧
  (∀ r ∈ s.runs, r.pk < s.nextRunPk) ∧
  (s.runs.map (fun r => r.id)).Nodup ∧
  (∀ c ∈ s.comps, c.pk < s.nextCompPk) ∧
  (∀ c ∈ s.comps, ∃ r ∈ s.runs, c.run_fk = r.pk)

instance (s : Store) : Decidable (WF s) :=
  inferInstanceAs (Decidable (
    s.runs.Pairwise (fun a b : Run => a.pk < b.pk) ∧
    (∀ r ∈ s.runs, r.pk < s.nextRunPk) ∧
    (s.runs.map (fun r : Run => r.id)).Nodup ∧
    (∀ c ∈ s.comps, c.pk < s.nextCompPk) ∧
    (∀ c ∈ s.comps, ∃ r ∈ s.runs, c.run_fk = r.pk)))

/-- Observable equality of two stores through the read API: identical run
rows and, for every run, identical reported composition lists. -/
def ObsEq (s t : Store) : Prop :=
  s.runs = t.runs ∧ ∀ r ∈ s.runs, compsView s r.pk = compsView t r.pk

/-! ### Basic facts about the embedded operations -/

@[simp] lemma insertComps_runs (s : Store) (k : Nat) (cs : List CompositionIn) :
    (insertComps s k cs).runs = s.runs := rfl

@[simp] lemma wipeComps_runs (s : Store) (k : Nat) :
    (wipeComps s k).runs = s.runs := rfl

@[simp] lemma updateCount_comps (s : Store) (k : Nat) (n : Int) :
    (updateCount s k n).comps = s.comps := rfl

@[simp] lemma createRun_comps (s : Store) (i : String) (n : Int) :
    (createRun s i n).comps = s.comps := rfl

@[simp] lemma createRun_runs (s : Store) (i : String) (n : Int) :
    (createRun s i n).runs = s.runs ++ [⟨s.nextRunPk, i, n⟩] := rfl

@[simp] lemma findRun_insertComps (s : Store) (k : Nat) (cs : List CompositionIn)
    (i : String) : findRun (insertComps s k cs) i = findRun s i := rfl

@[simp] lemma findRun_wipeComps (s : Store) (k : Nat) (i : String) :
    findRun (wipeComps s k) i = findRun s i := rfl

@[simp] lemma compsView_updateCount (s : Store) (k : Nat) (n : Int) (j : Nat) :
    compsView (updateCount s k n) j = compsView s j := rfl

@[simp] lemma compsView_createRun (s : Store) (i : String) (n : Int) (j : Nat) :
    compsView (createRun s i n) j = compsView s j := rfl

lemma mem_buildRows {n k : Nat} {cs : List CompositionIn} {c : Composition}
    (h : c ∈ buildRows n k cs) : c.run_fk = k ∧ n ≤ c.pk := by
  induction cs generalizing n with
  | nil => simp [buildRows] at h
  | cons a rest ih =>
    rcases (by simpa [buildRows] using h : c = ⟨n, k, a.material, a.percentage⟩
        ∨ c ∈ buildRows (n + 1) k rest) with h1 | h1
    · subst h1; exact ⟨rfl, le_refl n⟩
    · obtain ⟨h2, h3⟩ := ih h1
      exact ⟨h2, le_trans (Nat.le_succ n) h3⟩

lemma filter_buildRows (n k j : Nat) (cs : List CompositionIn) :
    (buildRows n k cs).filter (fun c => c.run_fk == j) =
      if j = k then buildRows n k cs else [] := by
  induction cs generalizing n with
  | nil => simp [buildRows]
  | cons a rest ih =>
    by_cases h : j = k
    · subst h; simp [buildRows, List.filter_cons, ih]
    · simp [buildRows, List.filter_cons, Ne.symm h, h, ih]

lemma map_buildRows (n k : Nat) (cs : List CompositionIn) :
    (buildRows n k cs).map (fun c => (⟨c.material, c.percentage⟩ : CompositionIn))
      = cs := by
  induction cs generalizing n with
  | nil => rfl
  | cons a rest ih => simp [buildRows, ih]

lemma filter_wipe_self (k : Nat) (l : List Composition) :
    (l.filter (fun c => c.run_fk ≠ k)).filter (fun c => c.run_fk == k) = [] := by
  induction l with
  | nil => rfl
  | cons a rest ih =>
    by_cases ha : a.run_fk = k
    · simp [List.filter_cons, ha, ih]
    · simp [List.filter_cons, ha, ih]

lemma filter_wipe_ne {k j : Nat} (h : j ≠ k) (l : List Composition) :
    (l.filter (fun c => c.run_fk ≠ k)).filter (fun c => c.run_fk == j) =
      l.filter (fun c => c.run_fk == j) := by
  induction l with
  | nil => rfl
  | cons a rest ih =>
    simp only [List.filter_filter, decide_not] at ih ⊢
    by_cases ha : a.run_fk = k
    · simp [List.filter_cons, ha, Ne.symm h, ih]
    · simp [List.filter_cons, ha, ih]

lemma compsView_insertComps (s : Store) (k j : Nat) (cs : List CompositionIn) :
    compsView (insertComps s k cs) j =
      compsView s j ++ if j = k then cs else [] := by
  unfold compsView insertComps
  simp only [List.filter_append, List.map_append]
  rw [filter_buildRows]
  by_cases h : j = k
  · simp [h, map_buildRows]
  · simp [h]

lemma compsView_wipeComps (s : Store) (k j : Nat) :
    compsView (wipeComps s k) j = if j = k then [] else compsView s j := by
  have h1 : compsView (wipeComps s k) j =
      ((s.comps.filter (fun c => c.run_fk ≠ k)).filter
        (fun c => c.run_fk == j)).map
          (fun c => (⟨c.material, c.percentage⟩ : CompositionIn)) := rfl
  by_cases h : j = k
  · subst h
    rw [h1, filter_wipe_self]
    simp
  · rw [h1, filter_wipe_ne h, if_neg h]
    rfl

lemma compsView_fresh {s : Store} (hwf : WF s) {j : Nat}
    (hj : s.nextRunPk ≤ j) : compsView s j = [] := by
  unfold compsView
  have hnil : s.comps.filter (fun c => c.run_fk == j) = [] := by
    rw [List.filter_eq_nil_iff]
    intro c hc
    obtain ⟨r, hr, he⟩ := hwf.2.2.2.2 c hc
    have hlt : r.pk < s.nextRunPk := hwf.2.1 r hr
    simp only [beq_iff_eq, he]
    omega
  simp [hnil]

lemma run_mk_pk (a : Nat) (b : String) (c : Int) : (Run.mk a b c).pk = a := rfl

lemma upsert_run_of_none {s : Store} {p : RunIn} (h : findRun s p.id = none) :
    upsert_run s p =
      insertComps (createRun s p.id p.items_processed) s.nextRunPk p.composition := by
  unfold upsert_run
  rw [h]

lemma upsert_run_of_some {s : Store} {p : RunIn} {r : Run}
    (h : findRun s p.id = some r) :
    upsert_run s p =
      insertComps (wipeComps (updateCount s r.pk p.items_processed) r.pk)
        r.pk p.composition := by
  unfold upsert_run
  rw [h]

lemma findRun_createRun_self {s : Store} {i : String} (h : findRun s i = none)
    (n : Int) : findRun (createRun s i n) i = some ⟨s.nextRunPk, i, n⟩ := by
  unfold findRun at h
  unfold findRun createRun
  rw [List.find?_append, h, Option.none_or]
  exact List.find?_cons_of_pos _ (by simp)

lemma findRun_createRun_ne {s : Store} {i j : String} (hne : j ≠ i) (n : Int) :
    findRun (createRun s i n) j = findRun s j := by
  unfold findRun createRun
  rw [List.find?_append]
  cases hf : s.runs.find? (fun r => r.id == j) with
  | some r => rfl
  | none =>
    rw [List.find?_cons_of_neg _ (by simp [Ne.symm hne])]
    rfl

lemma findRun_updateCount (s : Store) (k : Nat) (n : Int) (i : String) :
    findRun (updateCount s k n) i =
      (findRun s i).map (fun q =>
        if q.pk = k then { q with items_processed := n } else q) := by
  unfold findRun updateCount
  rw [List.find?_map]
  have hp : ((fun r : Run => r.id == i) ∘ fun q : Run =>
      if q.pk = k then { q with items_processed := n } else q) =
        fun r : Run => r.id == i := by
    funext q
    by_cases h : q.pk = k <;> simp [h]
  rw [hp]

lemma updateCount_of_already {s : Store} {k : Nat} {n : Int}
    (h : ∀ q ∈ s.runs, q.pk = k → q.items_processed = n) :
    updateCount s k n = s := by
  unfold updateCount
  have hmap : s.runs.map (fun q =>
      if q.pk = k then { q with items_processed := n } else q) = s.runs := by
    have hcg := List.map_congr_left (l := s.runs)
      (f := fun q : Run => if q.pk = k then { q with items_processed := n } else q)
      (g := id) (fun q hq => by
        by_cases hk : q.pk = k
        · show (if q.pk = k then
              ({ q with items_processed := n } : Run) else q) = id q
          rw [if_pos hk]
          cases q with
          | mk a b c =>
            have hv := h _ hq hk
            simp only [id]
            simp only [Run.mk.injEq, and_true, true_and]
            exact hv.symm
        · simp [hk])
    simpa using hcg
  rw [hmap]

lemma updateCount_pks (s : Store) (k : Nat) (n : Int) :
    (updateCount s k n).runs.map (fun r => r.pk) = s.runs.map (fun r => r.pk) := by
  unfold updateCount
  rw [List.map_map]
  apply List.map_congr_left
  intro q _
  by_cases h : q.pk = k <;> simp [h]

lemma foldl_pickLatest_mem :
    ∀ (l : List Run) (acc : Option Run) (m : Run),
      l.foldl pickLatest acc = some m → acc = some m ∨ m ∈ l := by
  intro l
  induction l with
  | nil => intro acc m h; exact Or.inl h
  | cons a rest ih =>
    intro acc m h
    rcases ih (pickLatest acc a) m h with h1 | h1
    · cases acc with
      | none =>
        simp only [pickLatest, Option.some.injEq] at h1
        subst h1
        exact Or.inr (List.mem_cons_self a rest)
      | some x =>
        simp only [pickLatest] at h1
        by_cases hx : x.pk < a.pk
        · rw [if_pos hx] at h1
          cases h1
          exact Or.inr (List.mem_cons_self a rest)
        · rw [if_neg hx] at h1
          exact Or.inl h1
    · exact Or.inr (List.mem_cons_of_mem a h1)

lemma foldl_pickLatest_concat (l : List Run) (b : Run)
    (h : ∀ r ∈ l, r.pk < b.pk) :
    (l ++ [b]).foldl pickLatest none = some b := by
  rw [List.foldl_append]
  cases hacc : l.foldl pickLatest none with
  | none => rfl
  | some m =>
    have hm : m ∈ l := by
      rcases foldl_pickLatest_mem l none m hacc with h1 | h1
      · cases h1
      · exact h1
    show pickLatest (some m) b = some b
    simp only [pickLatest]
    rw [if_pos (h m hm)]

/-! ### Claim theorems -/

/-- C1: upserting an existing Run's external id with a new composition list
fully replaces the stored CompositionEntry rows: afterwards the rows for
that Run are exactly the entries of the new payload, and no row from any
earlier upsert remains. -/
theorem upsert_replaces_composition (s : Store) (p : RunIn) (r : Run)
    (hwf : WF s) (h : findRun s p.id = some r) :
    compsView (upsert_run s p) r.pk = p.composition ∧
    ∀ c ∈ s.comps, c.run_fk = r.pk → c ∉ (upsert_run s p).comps := by
  rw [upsert_run_of_some h]
  constructor
  · rw [compsView_insertComps, compsView_wipeComps]
    simp
  · intro c hc hck hmem
    have hcomps : (insertComps (wipeComps (updateCount s r.pk p.items_processed)
        r.pk) r.pk p.composition).comps =
        s.comps.filter (fun c => c.run_fk ≠ r.pk) ++
          buildRows s.nextCompPk r.pk p.composition := rfl
    rw [hcomps] at hmem
    rcases List.mem_append.mp hmem with h1 | h1
    · have h2 := List.of_mem_filter h1
      simp only [decide_eq_true_eq] at h2
      exact h2 hck
    · have h2 := (mem_buildRows h1).2
      have h3 := hwf.2.2.2.1 c hc
      omega

theorem upsert_replaces_composition_witness :
    compsView (upsert_run
        ⟨1, 2, [⟨0, "r1", 5⟩], [⟨0, 0, "wood", 40⟩, ⟨1, 0, "glass", 60⟩]⟩
        ⟨"r1", 7, [⟨"steel", 100⟩]⟩) 0 = [⟨"steel", 100⟩] ∧
    ∀ c ∈ (⟨1, 2, [⟨0, "r1", 5⟩],
        [⟨0, 0, "wood", 40⟩, ⟨1, 0, "glass", 60⟩]⟩ : Store).comps,
      c.run_fk = 0 →
        c ∉ (upsert_run
          ⟨1, 2, [⟨0, "r1", 5⟩], [⟨0, 0, "wood", 40⟩, ⟨1, 0, "glass", 60⟩]⟩
          ⟨"r1", 7, [⟨"steel", 100⟩]⟩).comps :=
  upsert_replaces_composition
    ⟨1, 2, [⟨0, "r1", 5⟩], [⟨0, 0, "wood", 40⟩, ⟨1, 0, "glass", 60⟩]⟩
    ⟨"r1", 7, [⟨"steel", 100⟩]⟩ ⟨0, "r1", 5⟩ (by decide) (by decide)

/-- C3: round-trip — upserting a payload whose id is not yet stored and
then fetching that id returns exactly the submitted count and composition. -/
theorem upsert_get_roundtrip (s : Store) (p : RunIn) (hwf : WF s)
    (h : findRun s p.id = none) :
    get_by_id (upsert_run s p) p.id =
      some ⟨p.id, p.items_processed, p.composition⟩ := by
  rw [upsert_run_of_none h]
  have hfind : findRun (insertComps (createRun s p.id p.items_processed)
      s.nextRunPk p.composition) p.id =
      some ⟨s.nextRunPk, p.id, p.items_processed⟩ := by
    rw [findRun_insertComps, findRun_createRun_self h]
  unfold get_by_id
  rw [hfind]
  have hv : compsView (insertComps (createRun s p.id p.items_processed)
      s.nextRunPk p.composition) s.nextRunPk = p.composition := by
    rw [compsView_insertComps, compsView_createRun,
      compsView_fresh hwf (le_refl _)]
    simp
  simp [hv]

theorem upsert_get_roundtrip_witness :
    get_by_id (upsert_run ⟨0, 0, [], []⟩
        ⟨"A", 3, [⟨"pla", 50⟩, ⟨"abs", 50⟩]⟩) "A" =
      some ⟨"A", 3, [⟨"pla", 50⟩, ⟨"abs", 50⟩]⟩ :=
  upsert_get_roundtrip ⟨0, 0, [], []⟩ ⟨"A", 3, [⟨"pla", 50⟩, ⟨"abs", 50⟩]⟩
    (by decide) (by decide)

/-- C5: a malformed payload is rejected with 422 and the store is left
completely unchanged. -/
theorem invalid_rejected_before_persistence (key : String) (s : Store)
    (p : RunIn) (h : validRun p = false) :
    upsert_endpoint key key s p = (422, s) := by
  unfold upsert_endpoint
  rw [if_pos rfl, h]
  simp

theorem invalid_rejected_before_persistence_witness :
    upsert_endpoint "dev-key" "dev-key" ⟨0, 0, [], []⟩
      ⟨"r1", 1, [⟨"pvc", 150⟩]⟩ = (422, ⟨0, 0, [], []⟩) :=
  invalid_rejected_before_persistence "dev-key" ⟨0, 0, [], []⟩
    ⟨"r1", 1, [⟨"pvc", 150⟩]⟩ (by decide)

/-- C6: the upsert of an existing Run is a sequence of separately committed
steps; at the intermediate state right after the count-update commit the
Run already reports the new count while its composition rows are still the
previous ones. -/
theorem upsert_not_atomic (s : Store) (p : RunIn) (r : Run)
    (h : findRun s p.id = some r) :
    get_by_id (updateCount s r.pk p.items_processed) p.id =
      some ⟨r.id, p.items_processed, compsView s r.pk⟩ ∧
    upsert_run s p =
      insertComps (wipeComps (updateCount s r.pk p.items_processed) r.pk)
        r.pk p.composition := by
  constructor
  · unfold get_by_id
    rw [findRun_updateCount, h]
    simp
  · exact upsert_run_of_some h

theorem upsert_not_atomic_witness :
    get_by_id (updateCount ⟨1, 1, [⟨0, "r1", 5⟩], [⟨0, 0, "wood", 100⟩]⟩ 0 9)
        "r1" = some ⟨"r1", 9, [⟨"wood", 100⟩]⟩ ∧
    upsert_run ⟨1, 1, [⟨0, "r1", 5⟩], [⟨0, 0, "wood", 100⟩]⟩
        ⟨"r1", 9, [⟨"steel", 100⟩]⟩ =
      insertComps (wipeComps
        (updateCount ⟨1, 1, [⟨0, "r1", 5⟩], [⟨0, 0, "wood", 100⟩]⟩ 0 9) 0) 0
        [⟨"steel", 100⟩] :=
  upsert_not_atomic ⟨1, 1, [⟨0, "r1", 5⟩], [⟨0, 0, "wood", 100⟩]⟩
    ⟨"r1", 9, [⟨"steel", 100⟩]⟩ ⟨0, "r1", 5⟩ (by decide)

/-- C9: a Run whose external id is the literal string "latest" can be
stored by upsert, but the GET route for the path segment "latest" is
dispatched to the latest-by-surrogate-key handler, never to the
get-by-id handler. -/
theorem latest_id_shadowed (s t : Store) (p : RunIn) (hid : p.id = "latest")
    (h : findRun s "latest" = none) :
    (findRun (upsert_run s p) "latest").isSome = true ∧
    route_runs_get t "latest" = get_latest t := by
  constructor
  · rw [← hid] at h ⊢
    rw [upsert_run_of_none h, findRun_insertComps, findRun_createRun_self h]
    rfl
  · unfold route_runs_get
    rw [if_pos rfl]

theorem latest_id_shadowed_witness :
    (findRun (upsert_run ⟨0, 0, [], []⟩ ⟨"latest", 2, [⟨"oak", 100⟩]⟩)
      "latest").isSome = true ∧
    route_runs_get ⟨2, 1, [⟨0, "latest", 2⟩, ⟨1, "B", 4⟩], [⟨0, 0, "oak", 100⟩]⟩
        "latest" =
      get_latest ⟨2, 1, [⟨0, "latest", 2⟩, ⟨1, "B", 4⟩], [⟨0, 0, "oak", 100⟩]⟩ :=
  latest_id_shadowed ⟨0, 0, [], []⟩
    ⟨2, 1, [⟨0, "latest", 2⟩, ⟨1, "B", 4⟩], [⟨0, 0, "oak", 100⟩]⟩
    ⟨"latest", 2, [⟨"oak", 100⟩]⟩ (by decide) (by decide)

/-- C2: upsert is idempotent with respect to final state — running it
twice with the same payload leaves the store observably identical to
running it once. -/
theorem upsert_idempotent (s : Store) (p : RunIn) (hwf : WF s) :
    ObsEq (upsert_run (upsert_run s p) p) (upsert_run s p) := by
  cases hf : findRun s p.id with
  | none =>
    have hs1 : upsert_run s p =
        insertComps (createRun s p.id p.items_processed) s.nextRunPk
          p.composition := upsert_run_of_none hf
    have hfind1 : findRun (upsert_run s p) p.id =
        some ⟨s.nextRunPk, p.id, p.items_processed⟩ := by
      rw [hs1, findRun_insertComps, findRun_createRun_self hf]
    have hs2 : upsert_run (upsert_run s p) p =
        insertComps (wipeComps (updateCount (upsert_run s p) s.nextRunPk
          p.items_processed) s.nextRunPk) s.nextRunPk p.composition :=
      upsert_run_of_some hfind1
    have hupd : updateCount (upsert_run s p) s.nextRunPk p.items_processed =
        upsert_run s p := by
      apply updateCount_of_already
      intro q hq hqpk
      rw [hs1] at hq
      have hq2 : q ∈ s.runs ++ [⟨s.nextRunPk, p.id, p.items_processed⟩] := hq
      rcases List.mem_append.mp hq2 with h1 | h1
      · have := hwf.2.1 q h1
        omega
      · simp only [List.mem_singleton] at h1
        rw [h1]
    have hv1 : compsView (upsert_run s p) s.nextRunPk = p.composition := by
      rw [hs1, compsView_insertComps, compsView_createRun,
        compsView_fresh hwf (le_refl _)]
      simp
    rw [hs2, hupd]
    constructor
    · rfl
    · intro r hr
      rw [compsView_insertComps, compsView_wipeComps]
      by_cases hj : r.pk = s.nextRunPk
      · rw [hj, if_pos rfl, if_pos rfl, hv1]
        simp
      · rw [if_neg hj, if_neg hj]
        simp
  | some r =>
    have hs1 : upsert_run s p =
        insertComps (wipeComps (updateCount s r.pk p.items_processed) r.pk)
          r.pk p.composition := upsert_run_of_some hf
    have hfind1 : findRun (upsert_run s p) p.id =
        some { r with items_processed := p.items_processed } := by
      rw [hs1, findRun_insertComps, findRun_wipeComps, findRun_updateCount, hf]
      simp
    have hs2 := upsert_run_of_some hfind1
    rw [run_mk_pk] at hs2
    have hupd : updateCount (upsert_run s p) r.pk p.items_processed =
        upsert_run s p := by
      apply updateCount_of_already
      intro q hq hqpk
      rw [hs1] at hq
      have hq2 : q ∈ s.runs.map (fun x =>
          if x.pk = r.pk then { x with items_processed := p.items_processed }
          else x) := hq
      obtain ⟨x, hx, hxe⟩ := List.mem_map.mp hq2
      by_cases hxk : x.pk = r.pk
      · rw [← hxe, if_pos hxk]
      · rw [← hxe, if_neg hxk] at hqpk
        exact absurd hqpk hxk
    have hv1 : compsView (upsert_run s p) r.pk = p.composition := by
      rw [hs1, compsView_insertComps, compsView_wipeComps]
      simp
    rw [hs2, hupd]
    constructor
    · rfl
    · intro q hq
      rw [compsView_insertComps, compsView_wipeComps]
      by_cases hj : q.pk = r.pk
      · rw [hj, if_pos rfl, if_pos rfl, hv1]
        simp
      · rw [if_neg hj, if_neg hj]
        simp

theorem upsert_idempotent_witness :
    ObsEq
      (upsert_run (upsert_run ⟨1, 1, [⟨0, "old", 2⟩], [⟨0, 0, "tin", 100⟩]⟩
          ⟨"old", 6, [⟨"zinc", 25⟩, ⟨"lead", 75⟩]⟩)
        ⟨"old", 6, [⟨"zinc", 25⟩, ⟨"lead", 75⟩]⟩)
      (upsert_run ⟨1, 1, [⟨0, "old", 2⟩], [⟨0, 0, "tin", 100⟩]⟩
        ⟨"old", 6, [⟨"zinc", 25⟩, ⟨"lead", 75⟩]⟩) :=
  upsert_idempotent ⟨1, 1, [⟨0, "old", 2⟩], [⟨0, 0, "tin", 100⟩]⟩
    ⟨"old", 6, [⟨"zinc", 25⟩, ⟨"lead", 75⟩]⟩ (by decide)

/-- C4: get-latest returns the Run with the highest surrogate key
(insertion order): after upserting fresh ids A then B it returns B's data,
and re-upserting an existing Run never changes the surrogate keys. -/
theorem get_latest_by_surrogate_key (s : Store) (pa pb q : RunIn) (rq : Run)
    (hwf : WF s) (ha : findRun s pa.id = none) (hab : pb.id ≠ pa.id)
    (hb : findRun s pb.id = none) :
    get_latest (upsert_run (upsert_run s pa) pb) =
      some ⟨pb.id, pb.items_processed, pb.composition⟩ ∧
    (findRun s q.id = some rq →
      (upsert_run s q).runs.map (fun r => r.pk) =
        s.runs.map (fun r => r.pk)) := by
  have hs1 : upsert_run s pa =
      insertComps (createRun s pa.id pa.items_processed) s.nextRunPk
        pa.composition := upsert_run_of_none ha
  have hn1 : (upsert_run s pa).nextRunPk = s.nextRunPk + 1 := by
    rw [hs1]
    rfl
  have hfb : findRun (upsert_run s pa) pb.id = none := by
    rw [hs1, findRun_insertComps, findRun_createRun_ne hab]
    exact hb
  have hs2 : upsert_run (upsert_run s pa) pb =
      insertComps (createRun (upsert_run s pa) pb.id pb.items_processed)
        (upsert_run s pa).nextRunPk pb.composition := upsert_run_of_none hfb
  rw [hn1] at hs2
  constructor
  · have hvfresh : compsView (upsert_run s pa) (s.nextRunPk + 1) = [] := by
      rw [hs1, compsView_insertComps, compsView_createRun,
        compsView_fresh hwf (Nat.le_succ _)]
      simp [Nat.succ_ne_self]
    have hview : compsView (upsert_run (upsert_run s pa) pb)
        (s.nextRunPk + 1) = pb.composition := by
      rw [hs2, compsView_insertComps, compsView_createRun, hvfresh]
      simp
    have hruns : (upsert_run (upsert_run s pa) pb).runs =
        (s.runs ++ [⟨s.nextRunPk, pa.id, pa.items_processed⟩]) ++
          [⟨s.nextRunPk + 1, pb.id, pb.items_processed⟩] := by
      rw [hs2, insertComps_runs, createRun_runs, hn1, hs1, insertComps_runs,
        createRun_runs]
    have hlatest : latestRun (upsert_run (upsert_run s pa) pb) =
        some ⟨s.nextRunPk + 1, pb.id, pb.items_processed⟩ := by
      unfold latestRun
      rw [hruns]
      apply foldl_pickLatest_concat
      intro r hr
      show r.pk < s.nextRunPk + 1
      rcases List.mem_append.mp hr with h1 | h1
      · have := hwf.2.1 r h1
        omega
      · simp only [List.mem_singleton] at h1
        rw [h1]
        exact Nat.lt_succ_self _
    unfold get_latest
    rw [hlatest]
    simp [hview]
  · intro hq
    rw [upsert_run_of_some hq, insertComps_runs, wipeComps_runs,
      updateCount_pks]

theorem get_latest_by_surrogate_key_witness :
    get_latest (upsert_run (upsert_run ⟨0, 0, [], []⟩
        ⟨"A", 1, [⟨"oak", 100⟩]⟩) ⟨"B", 2, [⟨"ash", 40⟩, ⟨"elm", 60⟩]⟩) =
      some ⟨"B", 2, [⟨"ash", 40⟩, ⟨"elm", 60⟩]⟩ ∧
    (findRun ⟨0, 0, [], []⟩ "C" = some ⟨0, "C", 1⟩ →
      (upsert_run ⟨0, 0, [], []⟩ ⟨"C", 1, []⟩).runs.map (fun r => r.pk) =
        (⟨0, 0, [], []⟩ : Store).runs.map (fun r => r.pk)) :=
  get_latest_by_surrogate_key ⟨0, 0, [], []⟩ ⟨"A", 1, [⟨"oak", 100⟩]⟩
    ⟨"B", 2, [⟨"ash", 40⟩, ⟨"elm", 60⟩]⟩ ⟨"C", 1, []⟩ ⟨0, "C", 1⟩
    (by decide) (by decide) (by decide) (by decide)

/-- C7: the list operation returns id and count summaries for at most
`limit` Runs, taken from the runs sorted newest first by surrogate key
descending, and the limit defaults to 50. -/
theorem list_runs_spec (s : Store) (limit : Nat) :
    (list_runs s limit).length ≤ limit ∧
    list_runs s limit =
      ((List.insertionSort pkDesc s.runs).take limit).map
        (fun r => (⟨r.id, r.items_processed⟩ : RunMeta)) ∧
    List.Sorted pkDesc ((List.insertionSort pkDesc s.runs).take limit) ∧
    (List.insertionSort pkDesc s.runs).Perm s.runs ∧
    list_runs_default s = list_runs s 50 := by
  refine ⟨?_, rfl, ?_, List.perm_insertionSort pkDesc s.runs, rfl⟩
  · unfold list_runs
    rw [List.length_map, List.length_take]
    exact min_le_left _ _
  · exact List.Pairwise.sublist (List.take_sublist limit _)
      (List.sorted_insertionSort pkDesc s.runs)

/-- C10: validation places no aggregate constraint on the composition
list — any payload whose entries are individually valid is accepted, and
every submitted entry (duplicates included) becomes its own stored row. -/
theorem no_aggregate_constraint (key : String) (s : Store) (p : RunIn)
    (hwf : WF s) (hfresh : findRun s p.id = none)
    (hid : 1 ≤ p.id.length) (hcount : (0 : Int) ≤ p.items_processed)
    (hcs : ∀ c ∈ p.composition, 1 ≤ c.material.length ∧
      (0 : ℚ) ≤ c.percentage ∧ c.percentage ≤ 100) :
    validRun p = true ∧
    upsert_endpoint key key s p = (200, upsert_run s p) ∧
    compsView (upsert_run s p) s.nextRunPk = p.composition := by
  have hv : validRun p = true := by
    unfold validRun
    simp only [Bool.and_eq_true, decide_eq_true_eq, List.all_eq_true]
    refine ⟨⟨hid, hcount⟩, fun c hc => ?_⟩
    obtain ⟨h1, h2, h3⟩ := hcs c hc
    unfold validComp
    simp [h1, h2, h3]
  refine ⟨hv, ?_, ?_⟩
  · unfold upsert_endpoint
    rw [if_pos rfl, hv]
    simp
  · rw [upsert_run_of_none hfresh, compsView_insertComps, compsView_createRun,
      compsView_fresh hwf (le_refl _)]
    simp

theorem no_aggregate_constraint_witness :
    validRun ⟨"dup", 0, [⟨"pla", 30⟩, ⟨"pla", 30⟩]⟩ = true ∧
    upsert_endpoint "k" "k" ⟨0, 0, [], []⟩
        ⟨"dup", 0, [⟨"pla", 30⟩, ⟨"pla", 30⟩]⟩ =
      (200, upsert_run ⟨0, 0, [], []⟩ ⟨"dup", 0, [⟨"pla", 30⟩, ⟨"pla", 30⟩]⟩) ∧
    compsView (upsert_run ⟨0, 0, [], []⟩
        ⟨"dup", 0, [⟨"pla", 30⟩, ⟨"pla", 30⟩]⟩) 0 =
      [⟨"pla", 30⟩, ⟨"pla", 30⟩] :=
  no_aggregate_constraint "k" ⟨0, 0, [], []⟩
    ⟨"dup", 0, [⟨"pla", 30⟩, ⟨"pla", 30⟩]⟩ (by decide) (by decide) (by decide)
    (by decide) (by decide)

end CompStore

namespace ImageEcho

/-- JSON body returned by `POST /upload`. -/
structure UploadResp where
  ok : Bool
  seq : String
  bytes_received : Nat
  server_t1_ns : Nat
  server_t2_ns : Nat
  client_t0_ns : String
  deriving Repr, DecidableEq

/-- `upload_image`: reads the server clock, reads the full binary payload,
reads the clock again, and echoes the form fields together with the byte
count and both timestamps.  The wall clock is modelled as a function from
successive read instants to nanosecond values. -/
def upload_image (clock : Nat → Nat) (t : Nat) (fileData : List Nat)
    (seq client_t0_ns : String) : UploadResp :=
  { ok := true
    seq := seq
    bytes_received := fileData.length
    server_t1_ns := clock t
    server_t2_ns := clock (t + 1)
    client_t0_ns := client_t0_ns }

/-- C8: the upload endpoint reports exactly the number of payload bytes
received, echoes `seq` and `client_t0_ns` unchanged, and (the clock being
monotone) its second server timestamp is at least its first. -/
theorem upload_echo_spec (clock : Nat → Nat) (t : Nat) (fileData : List Nat)
    (seq client_t0_ns : String) (hmono : Monotone clock) :
    (upload_image clock t fileData seq client_t0_ns).bytes_received =
      fileData.length ∧
    (upload_image clock t fileData seq client_t0_ns).seq = seq ∧
    (upload_image clock t fileData seq client_t0_ns).client_t0_ns =
      client_t0_ns ∧
    (upload_image clock t fileData seq client_t0_ns).ok = true ∧
    (upload_image clock t fileData seq client_t0_ns).server_t1_ns ≤
      (upload_image clock t fileData seq client_t0_ns).server_t2_ns :=
  ⟨rfl, rfl, rfl, rfl, hmono (Nat.le_succ t)⟩

theorem upload_echo_spec_witness :
    (upload_image (fun n => n) 41 [3, 1, 4, 1, 5, 9, 2, 6, 5, 3] "7"
      "123456789").bytes_received = 10 ∧
    (upload_image (fun n => n) 41 [3, 1, 4, 1, 5, 9, 2, 6, 5, 3] "7"
      "123456789").seq = "7" ∧
    (upload_image (fun n => n) 41 [3, 1, 4, 1, 5, 9, 2, 6, 5, 3] "7"
      "123456789").client_t0_ns = "123456789" ∧
    (upload_image (fun n => n) 41 [3, 1, 4, 1, 5, 9, 2, 6, 5, 3] "7"
      "123456789").ok = true ∧
    (upload_image (fun n => n) 41 [3, 1, 4, 1, 5, 9, 2, 6, 5, 3] "7"
      "123456789").server_t1_ns ≤
      (upload_image (fun n => n) 41 [3, 1, 4, 1, 5, 9, 2, 6, 5, 3] "7"
        "123456789").server_t2_ns :=
  upload_echo_spec (fun n => n) 41 [3, 1, 4, 1, 5, 9, 2, 6, 5, 3] "7"
    "123456789" (fun _ _ h => h)

end ImageEcho
